import Mathlib

/-!
# Verification of the UMAP supervised fusion core (cpp/src/umap/supervised.h)

Shallow embedding conventions:
* machine floating-point values are modelled as exact rationals `ℚ`
  (every comparison and arithmetic step the claims depend on is exact);
* the transcendental device functions `exp` and `powf` are abstract
  function parameters (`ℚ → ℚ`, `ℚ → ℚ → ℚ`);
* device arrays are modelled as functions `Nat → _` (CSR side) or as
  `List`s (COO side);
* a CUDA launch `<<<grid, blk>>>` with `grid = ceildiv(n, TPB_X)` is
  modelled by the set of thread indices `0 .. ceildiv n TPB_X * TPB_X - 1`
  it covers, executed as a fold (the kernels write disjoint locations, so
  the order is irrelevant under the CSR well-formedness hypotheses used
  in the theorems).
-/

/-- MLCommon::ceildiv: `(a + b - 1) / b`. -/
def ceildiv (a b : Nat) : Nat := (a + b - 1) / b

/-- MLCommon::Sparse::get_stop_idx (declared in sparse/csr.h, not under src).
Modelled from the spec, §3 RowIndex: the end offset of a row is the next
row's start offset, or `nnz` for the last row. -/
def get_stop_idx (row m nnz : Nat) (ind : Nat → Nat) : Nat :=
  if row < m - 1 then ind (row + 1) else nnz

/-- The inner lookup loop of sset_intersection_kernel: scan the column
array on `[start, stop)` and keep the value of the last index whose
column matches `col`, defaulting to `dflt`. -/
def scan_val (cols : Nat → Nat) (vals : Nat → ℚ) (start stop : Nat)
    (col : Nat) (dflt : ℚ) : ℚ :=
  (List.range' start (stop - start)).foldl
    (fun acc k => if cols k = col then vals k else acc) dflt

/-- `left_val` / `right_val` of sset_intersection_kernel: the value of a
CSR matrix at `(row, col)`, defaulting to the floor `mn` when absent. -/
def side_val (row_ind cols : Nat → Nat) (vals : Nat → ℚ) (nnz m : Nat)
    (mn : ℚ) (row col : Nat) : ℚ :=
  scan_val cols vals (row_ind row) (get_stop_idx row m nnz row_ind) col mn

/-- One parallel pass that conditionally writes `f j` into location `j`
of the output array, for each `j` in the index list `L`. -/
def writeFold (C : Nat → Bool) (f : Nat → ℚ) (L : List Nat)
    (rv : Nat → ℚ) : Nat → ℚ :=
  L.foldl (fun acc j => if C j then Function.update acc j (f j) else acc) rv

theorem writeFold_of_notMem (C : Nat → Bool) (f : Nat → ℚ) (L : List Nat)
    (rv : Nat → ℚ) (j : Nat) (hj : j ∉ L) :
    writeFold C f L rv j = rv j := by
  induction L generalizing rv with
  | nil => rfl
  | cons a t ih =>
    simp only [List.mem_cons, not_or] at hj
    simp only [writeFold, List.foldl_cons]
    rw [show (List.foldl (fun acc j => if C j then Function.update acc j (f j) else acc)
      (if C a then Function.update rv a (f a) else rv) t) =
      writeFold C f t (if C a then Function.update rv a (f a) else rv) from rfl,
      ih _ hj.2]
    by_cases hca : C a
    · rw [if_pos hca, Function.update_noteq hj.1]
    · rw [if_neg hca]

theorem writeFold_of_mem (C : Nat → Bool) (f : Nat → ℚ) (L : List Nat)
    (rv : Nat → ℚ) (j : Nat) (hj : j ∈ L) (hnd : L.Nodup) :
    writeFold C f L rv j = if C j then f j else rv j := by
  induction L generalizing rv with
  | nil => cases hj
  | cons a t ih =>
    simp only [List.nodup_cons] at hnd
    simp only [writeFold, List.foldl_cons]
    rcases List.mem_cons.mp hj with h | h
    · subst h
      rw [show (List.foldl (fun acc j => if C j then Function.update acc j (f j) else acc)
        (if C j then Function.update rv j (f j) else rv) t) =
        writeFold C f t (if C j then Function.update rv j (f j) else rv) from rfl,
        writeFold_of_notMem _ _ _ _ _ hnd.1]
      split <;> simp [Function.update_same]
    · rw [show (List.foldl (fun acc j => if C j then Function.update acc j (f j) else acc)
        (if C a then Function.update rv a (f a) else rv) t) =
        writeFold C f t (if C a then Function.update rv a (f a) else rv) from rfl,
        ih _ h hnd.2]
      have hja : j ≠ a := fun h' => (h' ▸ hnd.1) h
      have hrv : (if C a then Function.update rv a (f a) else rv) j = rv j := by
        by_cases hca : C a
        · rw [if_pos hca, Function.update_noteq hja]
        · rw [if_neg hca]
      rw [hrv]

/-- The grid of a row-parallel kernel: each thread index `r` in `rows`
with `r < m` performs the conditional writes of its row. -/
def rowFold (m : Nat) (rng : Nat → List Nat) (C : Nat → Nat → Bool)
    (f : Nat → Nat → ℚ) (rows : List Nat) (rv : Nat → ℚ) : Nat → ℚ :=
  rows.foldl
    (fun acc r => if r < m then writeFold (C r) (f r) (rng r) acc else acc) rv

theorem rowFold_of_notTouched (m : Nat) (rng : Nat → List Nat)
    (C : Nat → Nat → Bool) (f : Nat → Nat → ℚ) (rows : List Nat)
    (rv : Nat → ℚ) (j : Nat)
    (hj : ∀ r ∈ rows, r < m → j ∉ rng r) :
    rowFold m rng C f rows rv j = rv j := by
  induction rows generalizing rv with
  | nil => rfl
  | cons a t ih =>
    simp only [rowFold, List.foldl_cons]
    rw [show (List.foldl (fun acc r => if r < m then writeFold (C r) (f r) (rng r) acc else acc)
      (if a < m then writeFold (C a) (f a) (rng a) rv else rv) t) =
      rowFold m rng C f t (if a < m then writeFold (C a) (f a) (rng a) rv else rv) from rfl,
      ih _ (fun r hr => hj r (List.mem_cons_of_mem a hr))]
    by_cases hm : a < m
    · rw [if_pos hm]
      exact writeFold_of_notMem _ _ _ _ _ (hj a (List.mem_cons_self a t) hm)
    · rw [if_neg hm]

theorem rowFold_of_mem (m : Nat) (rng : Nat → List Nat)
    (C : Nat → Nat → Bool) (f : Nat → Nat → ℚ) (rows : List Nat)
    (rv : Nat → ℚ) (r j : Nat)
    (hr : r ∈ rows) (hrm : r < m) (hnd : rows.Nodup)
    (hjr : j ∈ rng r) (hjnd : (rng r).Nodup)
    (hdisj : ∀ r' ∈ rows, r' < m → r' ≠ r → j ∉ rng r') :
    rowFold m rng C f rows rv j = if C r j then f r j else rv j := by
  induction rows generalizing rv with
  | nil => cases hr
  | cons a t ih =>
    simp only [List.nodup_cons] at hnd
    simp only [rowFold, List.foldl_cons]
    rcases List.mem_cons.mp hr with h | h
    · subst h
      rw [show (List.foldl (fun acc r => if r < m then writeFold (C r) (f r) (rng r) acc else acc)
        (if r < m then writeFold (C r) (f r) (rng r) rv else rv) t) =
        rowFold m rng C f t (if r < m then writeFold (C r) (f r) (rng r) rv else rv) from rfl,
        rowFold_of_notTouched _ _ _ _ _ _ _
          (fun r' hr' hm' => hdisj r' (List.mem_cons_of_mem r hr') hm'
            (fun h' => (h' ▸ hnd.1) hr'))]
      rw [if_pos hrm]
      exact writeFold_of_mem _ _ _ _ _ hjr hjnd
    · have har : a ≠ r := fun h' => (h' ▸ hnd.1) h
      rw [show (List.foldl (fun acc r => if r < m then writeFold (C r) (f r) (rng r) acc else acc)
        (if a < m then writeFold (C a) (f a) (rng a) rv else rv) t) =
        rowFold m rng C f t (if a < m then writeFold (C a) (f a) (rng a) rv else rv) from rfl,
        ih _ h hnd.2 (fun r' hr' => hdisj r' (List.mem_cons_of_mem a hr'))]
      have hrv : (if a < m then writeFold (C a) (f a) (rng a) rv else rv) j = rv j := by
        by_cases hm : a < m
        · rw [if_pos hm]
          exact writeFold_of_notMem _ _ _ _ _ (hdisj a (List.mem_cons_self a t) hm har)
        · rw [if_neg hm]
      rw [hrv]

/-- The index range `[result_ind row, stop)` a row owns in a CSR layout. -/
def rowRange (ind : Nat → Nat) (m nnz r : Nat) : List Nat :=
  List.range' (ind r) (get_stop_idx r m nnz ind - ind r)

/-- The guard of the blend write in sset_intersection_kernel:
`left_val > left_min || right_val > right_min`. -/
def blend_cond (left_min right_min left_val right_val : ℚ) : Bool :=
  decide (left_min < left_val) || decide (right_min < right_val)

/-- The value written by sset_intersection_kernel when the guard holds
(`pw` models powf). -/
def blend_val (pw : ℚ → ℚ → ℚ) (mix_weight left_val right_val : ℚ) : ℚ :=
  if mix_weight < 1/2 then
    left_val * pw right_val (mix_weight / (1 - mix_weight))
  else
    pw left_val ((1 - mix_weight) / mix_weight) * right_val

/-- UMAPAlgo::Supervised::sset_intersection_kernel, launched on `nt`
threads: thread `row < m` scans its CSR slices of both inputs for each
union coordinate and conditionally overwrites `result_vals`. -/
def sset_intersection_kernel (row_ind1 cols1 : Nat → Nat) (vals1 : Nat → ℚ)
    (nnz1 : Nat) (row_ind2 cols2 : Nat → Nat) (vals2 : Nat → ℚ) (nnz2 : Nat)
    (result_ind result_cols : Nat → Nat) (result_vals : Nat → ℚ) (nnz : Nat)
    (left_min right_min : ℚ) (m : Nat) (mix_weight : ℚ)
    (pw : ℚ → ℚ → ℚ) (nt : Nat) : Nat → ℚ :=
  rowFold m (rowRange result_ind m nnz)
    (fun r j => blend_cond left_min right_min
      (side_val row_ind1 cols1 vals1 nnz1 m left_min r (result_cols j))
      (side_val row_ind2 cols2 vals2 nnz2 m right_min r (result_cols j)))
    (fun r j => blend_val pw mix_weight
      (side_val row_ind1 cols1 vals1 nnz1 m left_min r (result_cols j))
      (side_val row_ind2 cols2 vals2 nnz2 m right_min r (result_cols j)))
    (List.range nt) result_vals

/-- Modelled from the spec: MLCommon::Sparse::csr_add_finalize lives in
sparse/csr.h, not under src. Per the in-source comment at its call site
(element-wise sum of two simplicial sets) and spec §4.7.5-6, it fills
every coordinate of the row-aligned union pattern
(`result_ind`, `result_cols`, `nnz`, produced by the structural-union
collaborator csr_add_calc_inds) with the sum of the two sides' values
there, an absent side contributing 0. -/
def csr_add_finalize (row_ind1 cols1 : Nat → Nat) (vals1 : Nat → ℚ)
    (nnz1 : Nat) (row_ind2 cols2 : Nat → Nat) (vals2 : Nat → ℚ) (nnz2 : Nat)
    (result_ind result_cols : Nat → Nat) (nnz m : Nat) : Nat → ℚ :=
  rowFold m (rowRange result_ind m nnz)
    (fun _ _ => true)
    (fun r j => side_val row_ind1 cols1 vals1 nnz1 m 0 r (result_cols j) +
      side_val row_ind2 cols2 vals2 nnz2 m 0 r (result_cols j))
    (List.range m) (fun _ => 0)

/-- thrust::min_element over the value array of a COO graph: the least
element of `vals 0, …, vals (nnz-1)` (meaningful for `0 < nnz`). -/
def graph_min (vals : Nat → ℚ) (nnz : Nat) : ℚ :=
  (List.range nnz).foldl (fun acc k => min acc (vals k)) (vals 0)

/-- The floor derived from a side's global minimum:
`max(min / 2.0, 1e-8)` (lines 198-199 of supervised.h). -/
def floor_min (vals : Nat → ℚ) (nnz : Nat) : ℚ :=
  max (graph_min vals nnz / 2) (1e-8)

/-- UMAPAlgo::Supervised::general_simplicial_set_intersection: fill the
union pattern with the element-wise sum, derive the two floors from the
global minima, then launch sset_intersection_kernel on
`ceildiv nnz1 TPB_X * TPB_X` threads. -/
def general_simplicial_set_intersection (row1_ind cols1 : Nat → Nat)
    (vals1 : Nat → ℚ) (nnz1 : Nat) (row2_ind cols2 : Nat → Nat)
    (vals2 : Nat → ℚ) (nnz2 : Nat) (result_ind result_cols : Nat → Nat)
    (nnz m : Nat) (weight : ℚ) (pw : ℚ → ℚ → ℚ) (TPB_X : Nat) : Nat → ℚ :=
  sset_intersection_kernel row1_ind cols1 vals1 nnz1 row2_ind cols2 vals2 nnz2
    result_ind result_cols
    (csr_add_finalize row1_ind cols1 vals1 nnz1 row2_ind cols2 vals2 nnz2
      result_ind result_cols nnz m)
    nnz (floor_min vals1 nnz1) (floor_min vals2 nnz2) m weight pw
    (ceildiv nnz1 TPB_X * TPB_X)

theorem sset_kernel_at (row_ind1 cols1 : Nat → Nat) (vals1 : Nat → ℚ)
    (nnz1 : Nat) (row_ind2 cols2 : Nat → Nat) (vals2 : Nat → ℚ) (nnz2 : Nat)
    (result_ind result_cols : Nat → Nat) (result_vals : Nat → ℚ) (nnz : Nat)
    (lm rm : ℚ) (m : Nat) (w : ℚ) (pw : ℚ → ℚ → ℚ) (nt r j : Nat)
    (hr : r < nt) (hm : r < m) (hj : j ∈ rowRange result_ind m nnz r)
    (hdisj : ∀ r' < nt, r' < m → r' ≠ r → j ∉ rowRange result_ind m nnz r') :
    sset_intersection_kernel row_ind1 cols1 vals1 nnz1 row_ind2 cols2 vals2
      nnz2 result_ind result_cols result_vals nnz lm rm m w pw nt j =
    (if blend_cond lm rm
        (side_val row_ind1 cols1 vals1 nnz1 m lm r (result_cols j))
        (side_val row_ind2 cols2 vals2 nnz2 m rm r (result_cols j))
      then blend_val pw w
        (side_val row_ind1 cols1 vals1 nnz1 m lm r (result_cols j))
        (side_val row_ind2 cols2 vals2 nnz2 m rm r (result_cols j))
      else result_vals j) := by
  exact rowFold_of_mem _ _ _ _ _ _ _ _ (List.mem_range.mpr hr) hm
    (List.nodup_range nt) hj (List.nodup_range' _ _)
    (fun r' hr' hm' hne => hdisj r' (List.mem_range.mp hr') hm' hne)

theorem csr_add_finalize_at (row_ind1 cols1 : Nat → Nat) (vals1 : Nat → ℚ)
    (nnz1 : Nat) (row_ind2 cols2 : Nat → Nat) (vals2 : Nat → ℚ) (nnz2 : Nat)
    (result_ind result_cols : Nat → Nat) (nnz m : Nat) (r j : Nat)
    (hm : r < m) (hj : j ∈ rowRange result_ind m nnz r)
    (hdisj : ∀ r' < m, r' ≠ r → j ∉ rowRange result_ind m nnz r') :
    csr_add_finalize row_ind1 cols1 vals1 nnz1 row_ind2 cols2 vals2 nnz2
      result_ind result_cols nnz m j =
    side_val row_ind1 cols1 vals1 nnz1 m 0 r (result_cols j) +
      side_val row_ind2 cols2 vals2 nnz2 m 0 r (result_cols j) := by
  have h := rowFold_of_mem m (rowRange result_ind m nnz)
    (fun _ _ => true)
    (fun r j => side_val row_ind1 cols1 vals1 nnz1 m 0 r (result_cols j) +
      side_val row_ind2 cols2 vals2 nnz2 m 0 r (result_cols j))
    (List.range m) (fun _ => 0) r j
    (List.mem_range.mpr hm) hm (List.nodup_range m) hj (List.nodup_range' _ _)
    (fun r' hr' hm' hne => hdisj r' hm' hne)
  simpa [csr_add_finalize] using h

theorem foldl_min_le_init (vals : Nat → ℚ) (l : List Nat) (a : ℚ) :
    l.foldl (fun acc k => min acc (vals k)) a ≤ a := by
  induction l generalizing a with
  | nil => exact le_refl a
  | cons b t ih =>
    exact le_trans (ih (min a (vals b))) (min_le_left _ _)

theorem foldl_min_le_of_mem (vals : Nat → ℚ) (l : List Nat) (a : ℚ)
    (k : Nat) (hk : k ∈ l) :
    l.foldl (fun acc k => min acc (vals k)) a ≤ vals k := by
  induction l generalizing a with
  | nil => cases hk
  | cons b t ih =>
    rcases List.mem_cons.mp hk with h | h
    · subst h
      exact le_trans (foldl_min_le_init vals t (min a (vals k))) (min_le_right _ _)
    · exact ih (min a (vals b)) h

theorem foldl_min_attained (vals : Nat → ℚ) (l : List Nat) (a : ℚ) :
    l.foldl (fun acc k => min acc (vals k)) a = a ∨
      ∃ k ∈ l, l.foldl (fun acc k => min acc (vals k)) a = vals k := by
  induction l generalizing a with
  | nil => exact Or.inl rfl
  | cons b t ih =>
    rcases ih (min a (vals b)) with h | ⟨k, hk, h⟩
    · simp only [List.foldl_cons]
      rcases min_cases a (vals b) with ⟨he, _⟩ | ⟨he, _⟩
      · exact Or.inl (h.trans he)
      · exact Or.inr ⟨b, List.mem_cons_self b t, h.trans he⟩
    · exact Or.inr ⟨k, List.mem_cons_of_mem b hk, h⟩

theorem graph_min_is_min (vals : Nat → ℚ) (nnz : Nat) (h : 0 < nnz) :
    (∀ k < nnz, graph_min vals nnz ≤ vals k) ∧
      ∃ k < nnz, graph_min vals nnz = vals k := by
  constructor
  · intro k hk
    exact foldl_min_le_of_mem vals (List.range nnz) (vals 0) k
      (List.mem_range.mpr hk)
  · rcases foldl_min_attained vals (List.range nnz) (vals 0) with h0 | ⟨k, hk, hke⟩
    · exact ⟨0, h, h0⟩
    · exact ⟨k, List.mem_range.mp hk, hke⟩

/-- C6: ContinuousFusion computes the global minimum `min1` over all of
G1's entries and `min2` over all of G2's entries and derives the floors
`left_min = max(min1/2, 1e-8)`, `right_min = max(min2/2, 1e-8)` used by
the blend kernel, for every pair of nonempty input graphs:
`graph_min` is at most every entry and is attained by some entry of each
side, and the pipeline invokes the blend kernel with exactly
`max (graph_min _ _ / 2) 1e-8` as each side's floor. -/
theorem general_intersection_floor_values (row1_ind cols1 : Nat → Nat)
    (vals1 : Nat → ℚ) (nnz1 : Nat) (row2_ind cols2 : Nat → Nat)
    (vals2 : Nat → ℚ) (nnz2 : Nat) (result_ind result_cols : Nat → Nat)
    (nnz m : Nat) (weight : ℚ) (pw : ℚ → ℚ → ℚ) (TPB_X : Nat)
    (h1 : 0 < nnz1) (h2 : 0 < nnz2) :
    (∀ k < nnz1, graph_min vals1 nnz1 ≤ vals1 k) ∧
    (∃ k < nnz1, graph_min vals1 nnz1 = vals1 k) ∧
    (∀ k < nnz2, graph_min vals2 nnz2 ≤ vals2 k) ∧
    (∃ k < nnz2, graph_min vals2 nnz2 = vals2 k) ∧
    floor_min vals1 nnz1 = max (graph_min vals1 nnz1 / 2) (1e-8) ∧
    floor_min vals2 nnz2 = max (graph_min vals2 nnz2 / 2) (1e-8) ∧
    general_simplicial_set_intersection row1_ind cols1 vals1 nnz1 row2_ind
        cols2 vals2 nnz2 result_ind result_cols nnz m weight pw TPB_X =
      sset_intersection_kernel row1_ind cols1 vals1 nnz1 row2_ind cols2 vals2
        nnz2 result_ind result_cols
        (csr_add_finalize row1_ind cols1 vals1 nnz1 row2_ind cols2 vals2 nnz2
          result_ind result_cols nnz m)
        nnz (max (graph_min vals1 nnz1 / 2) (1e-8))
        (max (graph_min vals2 nnz2 / 2) (1e-8)) m weight pw
        (ceildiv nnz1 TPB_X * TPB_X) := by
  refine ⟨(graph_min_is_min vals1 nnz1 h1).1, (graph_min_is_min vals1 nnz1 h1).2,
    (graph_min_is_min vals2 nnz2 h2).1, (graph_min_is_min vals2 nnz2 h2).2,
    rfl, rfl, rfl⟩

/-- Witness for C6 at a concrete pair of one-entry graphs. -/
theorem general_intersection_floor_values_witness :
    (∀ k < 1, graph_min (fun _ => (2 : ℚ)) 1 ≤ (fun _ => (2 : ℚ)) k) ∧
    (∃ k < 1, graph_min (fun _ => (2 : ℚ)) 1 = (fun _ => (2 : ℚ)) k) ∧
    (∀ k < 1, graph_min (fun _ => (3 : ℚ)) 1 ≤ (fun _ => (3 : ℚ)) k) ∧
    (∃ k < 1, graph_min (fun _ => (3 : ℚ)) 1 = (fun _ => (3 : ℚ)) k) ∧
    floor_min (fun _ => (2 : ℚ)) 1 = max (graph_min (fun _ => (2 : ℚ)) 1 / 2) (1e-8) ∧
    floor_min (fun _ => (3 : ℚ)) 1 = max (graph_min (fun _ => (3 : ℚ)) 1 / 2) (1e-8) ∧
    general_simplicial_set_intersection (fun _ => 0) (fun _ => 0)
        (fun _ => (2 : ℚ)) 1 (fun _ => 0) (fun _ => 0) (fun _ => (3 : ℚ)) 1
        (fun _ => 0) (fun _ => 0) 1 1 (1/4) (fun a _ => a) 1 =
      sset_intersection_kernel (fun _ => 0) (fun _ => 0) (fun _ => (2 : ℚ)) 1
        (fun _ => 0) (fun _ => 0) (fun _ => (3 : ℚ)) 1 (fun _ => 0)
        (fun _ => 0)
        (csr_add_finalize (fun _ => 0) (fun _ => 0) (fun _ => (2 : ℚ)) 1
          (fun _ => 0) (fun _ => 0) (fun _ => (3 : ℚ)) 1 (fun _ => 0)
          (fun _ => 0) 1 1)
        1 (max (graph_min (fun _ => (2 : ℚ)) 1 / 2) (1e-8))
        (max (graph_min (fun _ => (3 : ℚ)) 1 / 2) (1e-8)) 1 (1/4)
        (fun a _ => a) (ceildiv 1 1 * 1) :=
  general_intersection_floor_values (fun _ => 0) (fun _ => 0) (fun _ => 2) 1
    (fun _ => 0) (fun _ => 0) (fun _ => 3) 1 (fun _ => 0) (fun _ => 0) 1 1
    (1/4) (fun a _ => a) 1 (by decide) (by decide)

/-- A concrete stand-in for powf on rationals used in closed witnesses:
integral exponents are computed exactly, others mapped to 0. Theorems
about the kernels quantify over an arbitrary `pw`; this function only
instantiates them. -/
def ratPow (x e : ℚ) : ℚ := if e.den = 1 then x ^ e.num else 0

/-- C5: in ContinuousFusion's blend step, for every output coordinate
where at least one side's value exceeds its floor, `mix_weight < 0.5`
yields `left_val * powf(right_val, mix_weight / (1 - mix_weight))` and
`mix_weight > 0.5` yields
`powf(left_val, (1 - mix_weight) / mix_weight) * right_val`. -/
theorem sset_blend_formulas (row_ind1 cols1 : Nat → Nat) (vals1 : Nat → ℚ)
    (nnz1 : Nat) (row_ind2 cols2 : Nat → Nat) (vals2 : Nat → ℚ) (nnz2 : Nat)
    (result_ind result_cols : Nat → Nat) (result_vals : Nat → ℚ) (nnz : Nat)
    (lm rm : ℚ) (m : Nat) (w : ℚ) (pw : ℚ → ℚ → ℚ) (nt r j : Nat)
    (hr : r < nt) (hm : r < m) (hj : j ∈ rowRange result_ind m nnz r)
    (hdisj : ∀ r' < nt, r' < m → r' ≠ r → j ∉ rowRange result_ind m nnz r')
    (hcond : blend_cond lm rm
      (side_val row_ind1 cols1 vals1 nnz1 m lm r (result_cols j))
      (side_val row_ind2 cols2 vals2 nnz2 m rm r (result_cols j)) = true) :
    (w < 1/2 →
      sset_intersection_kernel row_ind1 cols1 vals1 nnz1 row_ind2 cols2 vals2
          nnz2 result_ind result_cols result_vals nnz lm rm m w pw nt j =
        side_val row_ind1 cols1 vals1 nnz1 m lm r (result_cols j) *
          pw (side_val row_ind2 cols2 vals2 nnz2 m rm r (result_cols j))
            (w / (1 - w))) ∧
    (1/2 < w →
      sset_intersection_kernel row_ind1 cols1 vals1 nnz1 row_ind2 cols2 vals2
          nnz2 result_ind result_cols result_vals nnz lm rm m w pw nt j =
        pw (side_val row_ind1 cols1 vals1 nnz1 m lm r (result_cols j))
            ((1 - w) / w) *
          side_val row_ind2 cols2 vals2 nnz2 m rm r (result_cols j)) := by
  have hk := sset_kernel_at row_ind1 cols1 vals1 nnz1 row_ind2 cols2 vals2
    nnz2 result_ind result_cols result_vals nnz lm rm m w pw nt r j hr hm hj
    hdisj
  rw [hk, if_pos hcond]
  constructor
  · intro hw
    simp only [blend_val, if_pos hw]
  · intro hw
    simp only [blend_val, if_neg (not_lt.mpr (le_of_lt hw))]

/-- Witness for C5 at a concrete one-row instance with mix weight 1/4. -/
theorem sset_blend_formulas_witness :
    (1/4 : ℚ) < 1/2 ∧
    sset_intersection_kernel (fun _ => 0) (fun _ => 0) (fun _ => (2 : ℚ)) 1
        (fun _ => 0) (fun _ => 0) (fun _ => (3 : ℚ)) 1 (fun _ => 0)
        (fun _ => 0) (fun _ => (5 : ℚ)) 1 1 1 1 (1/4) ratPow 1 0 =
      side_val (fun _ => 0) (fun _ => 0) (fun _ => (2 : ℚ)) 1 1 1 0
          ((fun _ => 0 : Nat → Nat) 0) *
        ratPow (side_val (fun _ => 0) (fun _ => 0) (fun _ => (3 : ℚ)) 1 1 1 0
          ((fun _ => 0 : Nat → Nat) 0)) ((1/4) / (1 - 1/4)) :=
  ⟨by norm_num,
    (sset_blend_formulas (fun _ => 0) (fun _ => 0) (fun _ => 2) 1 (fun _ => 0)
      (fun _ => 0) (fun _ => 3) 1 (fun _ => 0) (fun _ => 0) (fun _ => 5) 1 1 1
      1 (1/4) ratPow 1 0 0 (by decide) (by decide) (by decide) (by decide)
      (by decide)).1 (by norm_num)⟩

/-- C1 (amended): at `mix_weight` exactly 0.5 the second branch of the
blend DOES fire (the source tests `mix_weight < 0.5` with a plain else),
so every output coordinate with a side above its floor is overwritten
with `powf(left_val, (1-0.5)/0.5) * right_val = left_val * right_val`
(using that powf at exponent 1 is the identity). -/
theorem sset_blend_at_half (row_ind1 cols1 : Nat → Nat) (vals1 : Nat → ℚ)
    (nnz1 : Nat) (row_ind2 cols2 : Nat → Nat) (vals2 : Nat → ℚ) (nnz2 : Nat)
    (result_ind result_cols : Nat → Nat) (result_vals : Nat → ℚ) (nnz : Nat)
    (lm rm : ℚ) (m : Nat) (pw : ℚ → ℚ → ℚ) (nt r j : Nat)
    (hr : r < nt) (hm : r < m) (hj : j ∈ rowRange result_ind m nnz r)
    (hdisj : ∀ r' < nt, r' < m → r' ≠ r → j ∉ rowRange result_ind m nnz r')
    (hcond : blend_cond lm rm
      (side_val row_ind1 cols1 vals1 nnz1 m lm r (result_cols j))
      (side_val row_ind2 cols2 vals2 nnz2 m rm r (result_cols j)) = true)
    (hpw : pw (side_val row_ind1 cols1 vals1 nnz1 m lm r (result_cols j)) 1 =
      side_val row_ind1 cols1 vals1 nnz1 m lm r (result_cols j)) :
    sset_intersection_kernel row_ind1 cols1 vals1 nnz1 row_ind2 cols2 vals2
        nnz2 result_ind result_cols result_vals nnz lm rm m (1/2) pw nt j =
      side_val row_ind1 cols1 vals1 nnz1 m lm r (result_cols j) *
        side_val row_ind2 cols2 vals2 nnz2 m rm r (result_cols j) := by
  have hk := sset_kernel_at row_ind1 cols1 vals1 nnz1 row_ind2 cols2 vals2
    nnz2 result_ind result_cols result_vals nnz lm rm m (1/2) pw nt r j hr hm
    hj hdisj
  rw [hk, if_pos hcond]
  simp only [blend_val, if_neg (lt_irrefl (1/2 : ℚ))]
  have he : ((1 : ℚ) - 1/2) / (1/2) = 1 := by norm_num
  rw [he, hpw]

/-- Witness for the amended C1 at a concrete one-row instance. -/
theorem sset_blend_at_half_witness :
    sset_intersection_kernel (fun _ => 0) (fun _ => 0) (fun _ => (2 : ℚ)) 1
        (fun _ => 0) (fun _ => 0) (fun _ => (3 : ℚ)) 1 (fun _ => 0)
        (fun _ => 0) (fun _ => (5 : ℚ)) 1 1 1 1 (1/2) ratPow 1 0 =
      side_val (fun _ => 0) (fun _ => 0) (fun _ => (2 : ℚ)) 1 1 1 0
          ((fun _ => 0 : Nat → Nat) 0) *
        side_val (fun _ => 0) (fun _ => 0) (fun _ => (3 : ℚ)) 1 1 1 0
          ((fun _ => 0 : Nat → Nat) 0) :=
  sset_blend_at_half (fun _ => 0) (fun _ => 0) (fun _ => 2) 1 (fun _ => 0)
    (fun _ => 0) (fun _ => 3) 1 (fun _ => 0) (fun _ => 0) (fun _ => 5) 1 1 1 1
    ratPow 1 0 0 (by decide) (by decide) (by decide) (by decide) (by decide)
    (by rw [ratPow]; norm_num)

/-- C1 is false on the code: at `mix_weight = 0.5` the else-branch fires.
On the one-row pair G1 = {(0,0) ↦ 2}, G2 = {(0,0) ↦ 3} the left value 2
exceeds its floor 1, the pre-blend (element-wise sum) value is 5, yet the
pipeline outputs 2 * 3 = 6, neither the pre-blend value nor 0. -/
theorem sset_blend_at_half_counterexample :
    floor_min (fun _ => (2 : ℚ)) 1 <
      side_val (fun _ => 0) (fun _ => 0) (fun _ => (2 : ℚ)) 1 1
        (floor_min (fun _ => (2 : ℚ)) 1) 0 0 ∧
    csr_add_finalize (fun _ => 0) (fun _ => 0) (fun _ => (2 : ℚ)) 1
      (fun _ => 0) (fun _ => 0) (fun _ => (3 : ℚ)) 1 (fun _ => 0)
      (fun _ => 0) 1 1 0 = 5 ∧
    general_simplicial_set_intersection (fun _ => 0) (fun _ => 0)
      (fun _ => (2 : ℚ)) 1 (fun _ => 0) (fun _ => 0) (fun _ => (3 : ℚ)) 1
      (fun _ => 0) (fun _ => 0) 1 1 (1/2) ratPow 1 0 = 6 ∧
    (6 : ℚ) ≠ 5 ∧ (6 : ℚ) ≠ 0 := by
  refine ⟨?_, ?_, ?_, by norm_num, by norm_num⟩ <;>
    norm_num [general_simplicial_set_intersection, sset_intersection_kernel,
      csr_add_finalize, rowFold, writeFold, rowRange, side_val, scan_val,
      get_stop_idx, blend_cond, blend_val, floor_min, graph_min, ceildiv,
      ratPow, Function.update_apply, List.range', List.range_succ]

/-- C2 (amended): when both sides of an output coordinate are exactly at
their floors the blend guard fails and the kernel leaves the coordinate
at its pre-blend value, which is the element-wise sum written by
csr_add_finalize — not necessarily 0. -/
theorem general_intersection_skip_at_floor (row1_ind cols1 : Nat → Nat)
    (vals1 : Nat → ℚ) (nnz1 : Nat) (row2_ind cols2 : Nat → Nat)
    (vals2 : Nat → ℚ) (nnz2 : Nat) (result_ind result_cols : Nat → Nat)
    (nnz m : Nat) (weight : ℚ) (pw : ℚ → ℚ → ℚ) (TPB_X : Nat) (r j : Nat)
    (hr : r < ceildiv nnz1 TPB_X * TPB_X) (hm : r < m)
    (hj : j ∈ rowRange result_ind m nnz r)
    (hdisj : ∀ r' < ceildiv nnz1 TPB_X * TPB_X, r' < m → r' ≠ r →
      j ∉ rowRange result_ind m nnz r')
    (hL : side_val row1_ind cols1 vals1 nnz1 m (floor_min vals1 nnz1) r
      (result_cols j) = floor_min vals1 nnz1)
    (hR : side_val row2_ind cols2 vals2 nnz2 m (floor_min vals2 nnz2) r
      (result_cols j) = floor_min vals2 nnz2) :
    general_simplicial_set_intersection row1_ind cols1 vals1 nnz1 row2_ind
        cols2 vals2 nnz2 result_ind result_cols nnz m weight pw TPB_X j =
      csr_add_finalize row1_ind cols1 vals1 nnz1 row2_ind cols2 vals2 nnz2
        result_ind result_cols nnz m j := by
  have hk := sset_kernel_at row1_ind cols1 vals1 nnz1 row2_ind cols2 vals2
    nnz2 result_ind result_cols
    (csr_add_finalize row1_ind cols1 vals1 nnz1 row2_ind cols2 vals2 nnz2
      result_ind result_cols nnz m)
    nnz (floor_min vals1 nnz1) (floor_min vals2 nnz2) m weight pw
    (ceildiv nnz1 TPB_X * TPB_X) r j hr hm hj hdisj
  rw [general_simplicial_set_intersection, hk, hL, hR]
  simp [blend_cond]

/-- Witness for the amended C2: the one-row pair G1 = {(0,0) ↦ 1e-8},
G2 = {(0,1) ↦ 1} at output coordinate (0,0). -/
theorem general_intersection_skip_at_floor_witness :
    general_simplicial_set_intersection (fun _ => 0) (fun _ => 0)
        (fun _ => (1e-8 : ℚ)) 1 (fun _ => 0) (fun _ => 1) (fun _ => (1 : ℚ)) 1
        (fun _ => 0) (fun j => j) 2 1 (1/4) ratPow 2 0 =
      csr_add_finalize (fun _ => 0) (fun _ => 0) (fun _ => (1e-8 : ℚ)) 1
        (fun _ => 0) (fun _ => 1) (fun _ => (1 : ℚ)) 1 (fun _ => 0)
        (fun j => j) 2 1 0 :=
  general_intersection_skip_at_floor (fun _ => 0) (fun _ => 0)
    (fun _ => (1e-8 : ℚ)) 1 (fun _ => 0) (fun _ => 1) (fun _ => (1 : ℚ)) 1
    (fun _ => 0) (fun j => j) 2 1 (1/4) ratPow 2 0 0 (by decide) (by decide)
    (by decide) (by decide)
    (by norm_num [side_val, scan_val, get_stop_idx, floor_min, graph_min,
      List.range', List.range_succ])
    (by norm_num [side_val, scan_val, get_stop_idx, floor_min, graph_min,
      List.range', List.range_succ])

/-- C2 is false on the code: with G1 = {(0,0) ↦ 1e-8} (its global min is
1e-8, hence its floor is max(5e-9, 1e-8) = 1e-8, met exactly by the
stored value) and G2 = {(0,1) ↦ 1}, the output coordinate (0,0) has both
sides exactly at their floors, yet its value is the pre-blend
element-wise sum 1e-8, not 0: the edge survives with a nonzero weight. -/
theorem general_intersection_skip_at_floor_counterexample :
    side_val (fun _ => 0) (fun _ => 0) (fun _ => (1e-8 : ℚ)) 1 1
        (floor_min (fun _ => (1e-8 : ℚ)) 1) 0 0 =
      floor_min (fun _ => (1e-8 : ℚ)) 1 ∧
    side_val (fun _ => 0) (fun _ => 1) (fun _ => (1 : ℚ)) 1 1
        (floor_min (fun _ => (1 : ℚ)) 1) 0 0 =
      floor_min (fun _ => (1 : ℚ)) 1 ∧
    general_simplicial_set_intersection (fun _ => 0) (fun _ => 0)
        (fun _ => (1e-8 : ℚ)) 1 (fun _ => 0) (fun _ => 1) (fun _ => (1 : ℚ)) 1
        (fun _ => 0) (fun j => j) 2 1 (1/4) ratPow 2 0 = 1e-8 ∧
    (1e-8 : ℚ) ≠ 0 := by
  refine ⟨?_, ?_, ?_, by norm_num⟩ <;>
    norm_num [general_simplicial_set_intersection, sset_intersection_kernel,
      csr_add_finalize, rowFold, writeFold, rowRange, side_val, scan_val,
      get_stop_idx, blend_cond, blend_val, floor_min, graph_min, ceildiv,
      ratPow, Function.update_apply, List.range', List.range_succ]

/-- C9: the blend launch covers only `ceildiv nnz1 TPB_X * TPB_X` thread
indices. (a) Whenever that count is at least `m = n_rows`, every row
`r < m` is visited and each of its output coordinates gets the
blend-or-keep value. (b) On a concrete input with `nnz1 = 1 < m = 2` and
`TPB_X = 1`, row 1 lies at/above the thread count, is never visited, and
keeps its pre-blend element-wise sum value 1 even though the blend guard
holds there and would have written 1/2. -/
theorem sset_grid_coverage :
    (∀ (row1_ind cols1 : Nat → Nat) (vals1 : Nat → ℚ) (nnz1 : Nat)
      (row2_ind cols2 : Nat → Nat) (vals2 : Nat → ℚ) (nnz2 : Nat)
      (result_ind result_cols : Nat → Nat) (nnz m : Nat) (weight : ℚ)
      (pw : ℚ → ℚ → ℚ) (TPB_X r j : Nat),
      m ≤ ceildiv nnz1 TPB_X * TPB_X → r < m →
      j ∈ rowRange result_ind m nnz r →
      (∀ r' < ceildiv nnz1 TPB_X * TPB_X, r' < m → r' ≠ r →
        j ∉ rowRange result_ind m nnz r') →
      general_simplicial_set_intersection row1_ind cols1 vals1 nnz1 row2_ind
          cols2 vals2 nnz2 result_ind result_cols nnz m weight pw TPB_X j =
        (if blend_cond (floor_min vals1 nnz1) (floor_min vals2 nnz2)
            (side_val row1_ind cols1 vals1 nnz1 m (floor_min vals1 nnz1) r
              (result_cols j))
            (side_val row2_ind cols2 vals2 nnz2 m (floor_min vals2 nnz2) r
              (result_cols j))
          then blend_val pw weight
            (side_val row1_ind cols1 vals1 nnz1 m (floor_min vals1 nnz1) r
              (result_cols j))
            (side_val row2_ind cols2 vals2 nnz2 m (floor_min vals2 nnz2) r
              (result_cols j))
          else csr_add_finalize row1_ind cols1 vals1 nnz1 row2_ind cols2
            vals2 nnz2 result_ind result_cols nnz m j)) ∧
    ((1 : Nat) < 2 ∧ ceildiv 1 1 * 1 ≤ 1 ∧
      general_simplicial_set_intersection (fun r => if r = 0 then 0 else 1)
          (fun _ => 0) (fun _ => (1 : ℚ)) 1 (fun _ => 0) (fun _ => 0)
          (fun _ => (1 : ℚ)) 1 (fun r => if r = 0 then 0 else 1) (fun _ => 0)
          2 2 (1/2) ratPow 1 1 = 1 ∧
      csr_add_finalize (fun r => if r = 0 then 0 else 1) (fun _ => 0)
          (fun _ => (1 : ℚ)) 1 (fun _ => 0) (fun _ => 0) (fun _ => (1 : ℚ)) 1
          (fun r => if r = 0 then 0 else 1) (fun _ => 0) 2 2 1 = 1 ∧
      blend_cond (floor_min (fun _ => (1 : ℚ)) 1) (floor_min (fun _ => (1 : ℚ)) 1)
          (side_val (fun r => if r = 0 then 0 else 1) (fun _ => 0)
            (fun _ => (1 : ℚ)) 1 2 (floor_min (fun _ => (1 : ℚ)) 1) 1 0)
          (side_val (fun _ => 0) (fun _ => 0) (fun _ => (1 : ℚ)) 1 2
            (floor_min (fun _ => (1 : ℚ)) 1) 1 0) = true ∧
      blend_val ratPow (1/2)
          (side_val (fun r => if r = 0 then 0 else 1) (fun _ => 0)
            (fun _ => (1 : ℚ)) 1 2 (floor_min (fun _ => (1 : ℚ)) 1) 1 0)
          (side_val (fun _ => 0) (fun _ => 0) (fun _ => (1 : ℚ)) 1 2
            (floor_min (fun _ => (1 : ℚ)) 1) 1 0) = 1/2 ∧
      (1 : ℚ) ≠ 1/2) := by
  constructor
  · intro row1_ind cols1 vals1 nnz1 row2_ind cols2 vals2 nnz2 result_ind
      result_cols nnz m weight pw TPB_X r j hnt hm hj hdisj
    exact sset_kernel_at row1_ind cols1 vals1 nnz1 row2_ind cols2 vals2 nnz2
      result_ind result_cols
      (csr_add_finalize row1_ind cols1 vals1 nnz1 row2_ind cols2 vals2 nnz2
        result_ind result_cols nnz m)
      nnz (floor_min vals1 nnz1) (floor_min vals2 nnz2) m weight pw
      (ceildiv nnz1 TPB_X * TPB_X) r j (lt_of_lt_of_le hm hnt) hm hj hdisj
  · refine ⟨by decide, by decide, ?_, ?_, ?_, ?_, by norm_num⟩ <;>
      norm_num [general_simplicial_set_intersection, sset_intersection_kernel,
        csr_add_finalize, rowFold, writeFold, rowRange, side_val, scan_val,
        get_stop_idx, blend_cond, blend_val, floor_min, graph_min, ceildiv,
        ratPow, Function.update_apply, List.range', List.range_succ]

/-- Witness for C9's universal part at `TPB_X = 2`, where the thread
count `ceildiv 1 2 * 2 = 2` covers both rows. -/
theorem sset_grid_coverage_witness :
    general_simplicial_set_intersection (fun r => if r = 0 then 0 else 1)
        (fun _ => 0) (fun _ => (1 : ℚ)) 1 (fun _ => 0) (fun _ => 0)
        (fun _ => (1 : ℚ)) 1 (fun r => if r = 0 then 0 else 1) (fun _ => 0)
        2 2 (1/2) ratPow 2 1 =
      (if blend_cond (floor_min (fun _ => (1 : ℚ)) 1)
          (floor_min (fun _ => (1 : ℚ)) 1)
          (side_val (fun r => if r = 0 then 0 else 1) (fun _ => 0)
            (fun _ => (1 : ℚ)) 1 2 (floor_min (fun _ => (1 : ℚ)) 1) 1
            ((fun _ => 0 : Nat → Nat) 1))
          (side_val (fun _ => 0) (fun _ => 0) (fun _ => (1 : ℚ)) 1 2
            (floor_min (fun _ => (1 : ℚ)) 1) 1 ((fun _ => 0 : Nat → Nat) 1))
        then blend_val ratPow (1/2)
          (side_val (fun r => if r = 0 then 0 else 1) (fun _ => 0)
            (fun _ => (1 : ℚ)) 1 2 (floor_min (fun _ => (1 : ℚ)) 1) 1
            ((fun _ => 0 : Nat → Nat) 1))
          (side_val (fun _ => 0) (fun _ => 0) (fun _ => (1 : ℚ)) 1 2
            (floor_min (fun _ => (1 : ℚ)) 1) 1 ((fun _ => 0 : Nat → Nat) 1))
        else csr_add_finalize (fun r => if r = 0 then 0 else 1) (fun _ => 0)
          (fun _ => (1 : ℚ)) 1 (fun _ => 0) (fun _ => 0) (fun _ => (1 : ℚ)) 1
          (fun r => if r = 0 then 0 else 1) (fun _ => 0) 2 2 1) :=
  sset_grid_coverage.1 (fun r => if r = 0 then 0 else 1) (fun _ => 0)
    (fun _ => 1) 1 (fun _ => 0) (fun _ => 0) (fun _ => 1) 1
    (fun r => if r = 0 then 0 else 1) (fun _ => 0) 2 2 (1/2) ratPow 2 1 1
    (by decide) (by decide) (by decide) (by decide)

/-- The per-edge body of fast_intersection_kernel: an unknown (-1) label
on either endpoint attenuates by exp(-unknown_dist); differing known
labels attenuate by exp(-far_dist); equal known labels leave the value
unchanged. -/
def fast_intersection_val (target : Nat → ℚ) (ex : ℚ → ℚ)
    (unknown_dist far_dist : ℚ) (i j : Nat) (v : ℚ) : ℚ :=
  if target i = -1 ∨ target j = -1 then v * ex (-unknown_dist)
  else if target i ≠ target j then v * ex (-far_dist)
  else v

/-- UMAPAlgo::Supervised::fast_intersection_kernel on `nt` threads:
thread `row < nnz` rewrites `vals[row]` from the labels of the edge's
endpoints (`ex` models exp). -/
def fast_intersection_kernel (target : Nat → ℚ) (ex : ℚ → ℚ)
    (unknown_dist far_dist : ℚ) (rows cols : List Nat) (vals : List ℚ)
    (nt : Nat) : List ℚ :=
  (List.range vals.length).map (fun k =>
    if k < nt then
      fast_intersection_val target ex unknown_dist far_dist
        (rows.getD k 0) (cols.getD k 0) (vals.getD k 0)
    else vals.getD k 0)

theorem fast_intersection_getD (target : Nat → ℚ) (ex : ℚ → ℚ)
    (u f : ℚ) (rows cols : List Nat) (vals : List ℚ) (nt k : Nat)
    (hk : k < vals.length) :
    (fast_intersection_kernel target ex u f rows cols vals nt).getD k 0 =
    if k < nt then
      fast_intersection_val target ex u f (rows.getD k 0) (cols.getD k 0)
        (vals.getD k 0)
    else vals.getD k 0 := by
  simp [fast_intersection_kernel, List.getD_eq_getElem?_getD,
    List.getElem?_map, List.getElem?_range, hk]

/-- The launch geometry ceildiv(nnz, TPB_X) blocks of TPB_X threads
covers every edge index below nnz. -/
theorem le_ceildiv_mul (n TPB : Nat) (hT : 0 < TPB) :
    n ≤ ceildiv n TPB * TPB := by
  rw [ceildiv, Nat.mul_comm]
  have h1 := Nat.div_add_mod (n + TPB - 1) TPB
  have h2 := Nat.mod_lt (n + TPB - 1) hT
  set q := (n + TPB - 1) / TPB with hq
  set r := (n + TPB - 1) % TPB with hr
  set P := TPB * q with hP
  omega

/-- C3: in CategoricalFusion's label-weighting step (as launched over
ceildiv(nnz, TPB_X) blocks of TPB_X threads, which covers every edge),
an edge (i, j, v) with an unknown endpoint becomes
v * exp(-unknown_dist); with differing known labels it becomes
v * exp(-far_dist); with equal known labels it is unchanged; and the new
value of an edge depends only on that edge's own row, column and value
(no cross-edge dependency). -/
theorem fast_intersection_spec (target : Nat → ℚ) (ex : ℚ → ℚ)
    (unknown_dist far_dist : ℚ) (rows cols : List Nat) (vals : List ℚ)
    (TPB_X k : Nat) (hT : 0 < TPB_X) (hk : k < vals.length) :
    ((target (rows.getD k 0) = -1 ∨ target (cols.getD k 0) = -1 →
      (fast_intersection_kernel target ex unknown_dist far_dist rows cols
        vals (ceildiv vals.length TPB_X * TPB_X)).getD k 0 =
        vals.getD k 0 * ex (-unknown_dist)) ∧
     (target (rows.getD k 0) ≠ -1 → target (cols.getD k 0) ≠ -1 →
      target (rows.getD k 0) ≠ target (cols.getD k 0) →
      (fast_intersection_kernel target ex unknown_dist far_dist rows cols
        vals (ceildiv vals.length TPB_X * TPB_X)).getD k 0 =
        vals.getD k 0 * ex (-far_dist)) ∧
     (target (rows.getD k 0) ≠ -1 → target (cols.getD k 0) ≠ -1 →
      target (rows.getD k 0) = target (cols.getD k 0) →
      (fast_intersection_kernel target ex unknown_dist far_dist rows cols
        vals (ceildiv vals.length TPB_X * TPB_X)).getD k 0 =
        vals.getD k 0)) ∧
    (∀ (rows' cols' : List Nat) (vals' : List ℚ), vals'.length = vals.length →
      rows'.getD k 0 = rows.getD k 0 → cols'.getD k 0 = cols.getD k 0 →
      vals'.getD k 0 = vals.getD k 0 →
      (fast_intersection_kernel target ex unknown_dist far_dist rows' cols'
        vals' (ceildiv vals.length TPB_X * TPB_X)).getD k 0 =
      (fast_intersection_kernel target ex unknown_dist far_dist rows cols
        vals (ceildiv vals.length TPB_X * TPB_X)).getD k 0) := by
  have hnt : k < ceildiv vals.length TPB_X * TPB_X :=
    lt_of_lt_of_le hk (le_ceildiv_mul vals.length TPB_X hT)
  refine ⟨⟨?_, ?_, ?_⟩, ?_⟩
  · intro h
    rw [fast_intersection_getD target ex unknown_dist far_dist rows cols vals
      _ k hk, if_pos hnt, fast_intersection_val, if_pos h]
  · intro h1 h2 h3
    rw [fast_intersection_getD target ex unknown_dist far_dist rows cols vals
      _ k hk, if_pos hnt, fast_intersection_val,
      if_neg (by push_neg; exact ⟨h1, h2⟩), if_pos h3]
  · intro h1 h2 h3
    rw [fast_intersection_getD target ex unknown_dist far_dist rows cols vals
      _ k hk, if_pos hnt, fast_intersection_val,
      if_neg (by push_neg; exact ⟨h1, h2⟩), if_neg (by push_neg; exact h3)]
  · intro rows' cols' vals' hk' h1 h2 h3
    rw [fast_intersection_getD target ex unknown_dist far_dist rows cols vals
      _ k hk, fast_intersection_getD target ex unknown_dist far_dist rows'
      cols' vals' _ k (hk' ▸ hk), h1, h2, h3]

/-- Witness for C3: labels [0, -1] on the single edge (0, 1, 4). -/
theorem fast_intersection_spec_witness :
    (fast_intersection_kernel (fun i => if i = 0 then 0 else -1)
      (fun q => q + 2) (1/3) 5 [0] [1] [4]
      (ceildiv (List.length [(4 : ℚ)]) 1 * 1)).getD 0 0 =
    (4 : ℚ) * (fun q => q + 2) (-(1/3)) :=
  ((fast_intersection_spec (fun i => if i = 0 then 0 else -1)
    (fun q => q + 2) (1/3) 5 [0] [1] [4] 1 0 (by decide)
    (by decide)).1).1 (Or.inr (by norm_num))

/-- far_dist derivation of perform_categorical_intersection (lines
218-220): 1.0e12 unless target_weights < 1, in which case
2.5 * (1.0 / (1.0 - target_weights)). -/
def derive_far_dist (target_weights : ℚ) : ℚ :=
  if target_weights < 1 then 5/2 * (1 / (1 - target_weights)) else 10^12

/-- C4: CategoricalFusion derives far_dist as the very large constant
1e12 for every target_weights ≥ 1, and as 2.5 / (1 − target_weights)
for every target_weights < 1. -/
theorem derive_far_dist_spec (tw : ℚ) :
    (1 ≤ tw → derive_far_dist tw = 10^12) ∧
    (tw < 1 → derive_far_dist tw = 5/2 / (1 - tw)) := by
  constructor
  · intro h
    rw [derive_far_dist, if_neg (not_lt.mpr h)]
  · intro h
    rw [derive_far_dist, if_pos h, mul_one_div]

/-- Witness for C4 at target_weights = 0.9 (the spec's own end-to-end
example, where far_dist = 2.5 / 0.1 = 25). -/
theorem derive_far_dist_spec_witness :
    derive_far_dist (9/10) = 5/2 / (1 - 9/10) :=
  (derive_far_dist_spec (9/10)).2 (by norm_num)

/-- The value of a COO entry list at coordinate (i, j), 0 when absent. -/
def cooVal (g : List (Nat × Nat × ℚ)) (i j : Nat) : ℚ :=
  g.foldr (fun e acc => if e.1 = i ∧ e.2.1 = j then e.2.2 else acc) 0

/-- The absolute values of a COO entry list's row i. -/
def rowAbsVals (g : List (Nat × Nat × ℚ)) (i : Nat) : List ℚ :=
  (g.filter (fun e => e.1 == i)).map (fun e => |e.2.2|)

/-- The row-wise max-abs reduction feeding csr_row_normalize_max. -/
def rowMaxAbs (g : List (Nat × Nat × ℚ)) (i : Nat) : ℚ :=
  (rowAbsVals g i).foldr max 0

/-- Modelled from the spec: MLCommon::Sparse::csr_row_normalize_max lives
in sparse/csr.h, not under src. Per spec §4.2, each row whose maximum
absolute value is > 0 has every entry divided by that maximum; other rows
are left unchanged. (The CSR/COO layout is modelled as an entry list;
the row-index build of sorted_coo_to_csr is the identity on it.) -/
def csr_row_normalize_max (g : List (Nat × Nat × ℚ)) :
    List (Nat × Nat × ℚ) :=
  g.map (fun e =>
    if 0 < rowMaxAbs g e.1 then (e.1, e.2.1, e.2.2 / rowMaxAbs g e.1) else e)

/-- The fuzzy-union lambda of reset_local_connectivity (lines 83-86):
`result + transpose - result * transpose`. -/
def fuzzy_union (result transpose : ℚ) : ℚ :=
  result + transpose - result * transpose

/-- Modelled from the spec: MLCommon::Sparse::coo_symmetrize lives in
sparse/coo.h, not under src. Per spec §4.3, for every coordinate present
in G or its transpose it outputs `f a b` where `a` is G's value there
and `b` the transpose's (0 when absent). -/
def coo_symmetrize (f : ℚ → ℚ → ℚ) (g : List (Nat × Nat × ℚ)) :
    List (Nat × Nat × ℚ) :=
  ((g.map (fun e => (e.1, e.2.1)) ++ g.map (fun e => (e.2.1, e.1))).dedup).map
    (fun c => (c.1, c.2, f (cooVal g c.1 c.2) (cooVal g c.2 c.1)))

/-- UMAPAlgo::Supervised::reset_local_connectivity: row-index build, then
l_inf row normalization, then fuzzy-union symmetrization. -/
def reset_local_connectivity (g : List (Nat × Nat × ℚ)) :
    List (Nat × Nat × ℚ) :=
  coo_symmetrize fuzzy_union (csr_row_normalize_max g)

theorem foldr_max_nonneg (l : List ℚ) : 0 ≤ l.foldr max 0 := by
  induction l with
  | nil => exact le_refl 0
  | cons a t ih => exact le_trans ih (le_max_right a _)

theorem le_foldr_max (l : List ℚ) (x : ℚ) (hx : x ∈ l) :
    x ≤ l.foldr max 0 := by
  induction l with
  | nil => cases hx
  | cons a t ih =>
    rcases List.mem_cons.mp hx with h | h
    · subst h
      exact le_max_left x _
    · exact le_trans (ih h) (le_max_right a _)

theorem foldr_max_zero_or_mem (l : List ℚ) :
    l.foldr max 0 = 0 ∨ l.foldr max 0 ∈ l := by
  induction l with
  | nil => exact Or.inl rfl
  | cons a t ih =>
    simp only [List.foldr_cons]
    rcases le_total a (t.foldr max 0) with h | h
    · rw [max_eq_right h]
      rcases ih with h0 | hm
      · exact Or.inl h0
      · exact Or.inr (List.mem_cons_of_mem a hm)
    · rw [max_eq_left h]
      exact Or.inr (List.mem_cons_self a t)

theorem foldr_max_map_div (l : List ℚ) (c : ℚ) (hc : 0 < c) :
    (l.map (fun v => v / c)).foldr max 0 = l.foldr max 0 / c := by
  induction l with
  | nil => simp
  | cons a t ih =>
    simp only [List.map_cons, List.foldr_cons, ih]
    exact max_div_div_right (le_of_lt hc) a _

theorem rowAbsVals_map (i : Nat) (c : ℚ) (hc : 0 < c)
    (ψ : (Nat × Nat × ℚ) → (Nat × Nat × ℚ))
    (hψ1 : ∀ e, (ψ e).1 = e.1)
    (hψ2 : ∀ e, e.1 = i → (ψ e).2.2 = e.2.2 / c)
    (l : List (Nat × Nat × ℚ)) :
    rowAbsVals (l.map ψ) i = (rowAbsVals l i).map (fun v => v / c) := by
  induction l with
  | nil => rfl
  | cons a t ih =>
    simp only [rowAbsVals] at ih ⊢
    by_cases ha : (a.1 == i) = true
    · have ha' : ((ψ a).1 == i) = true := by rw [hψ1]; exact ha
      rw [List.map_cons, List.filter_cons, List.filter_cons, if_pos ha',
        if_pos ha, List.map_cons, List.map_cons, List.map_cons, ih,
        hψ2 a (by simpa using ha), abs_div, abs_of_pos hc]
    · have ha' : ¬ ((ψ a).1 == i) = true := by rw [hψ1]; exact ha
      rw [List.map_cons, List.filter_cons, List.filter_cons, if_neg ha',
        if_neg ha, ih]

theorem rowAbsVals_all_zero (g : List (Nat × Nat × ℚ)) (i : Nat)
    (h : ∀ e ∈ g, e.1 = i → e.2.2 = 0) :
    rowMaxAbs g i = 0 := by
  rcases foldr_max_zero_or_mem (rowAbsVals g i) with h0 | hm
  · exact h0
  · rcases List.mem_map.mp hm with ⟨e, he, hev⟩
    rcases List.mem_filter.mp he with ⟨heg, hei⟩
    show (rowAbsVals g i).foldr max 0 = 0
    rw [← hev, h e heg (by simpa using hei), abs_zero]

/-- C8: rows whose maximum absolute entry value is > 0 have every entry
divided by that maximum, and the row's new maximum absolute value is
exactly 1; rows with no entries or with all-zero entries pass through
unchanged. -/
theorem csr_row_normalize_max_spec (g : List (Nat × Nat × ℚ)) (i : Nat) :
    (0 < rowMaxAbs g i →
      (∀ e ∈ g, e.1 = i →
        (e.1, e.2.1, e.2.2 / rowMaxAbs g i) ∈ csr_row_normalize_max g) ∧
      rowMaxAbs (csr_row_normalize_max g) i = 1) ∧
    ((∀ e ∈ g, e.1 = i → e.2.2 = 0) →
      ∀ e ∈ g, e.1 = i → e ∈ csr_row_normalize_max g) := by
  constructor
  · intro h
    constructor
    · intro e he hei
      have : (if 0 < rowMaxAbs g e.1 then (e.1, e.2.1, e.2.2 / rowMaxAbs g e.1)
          else e) = (e.1, e.2.1, e.2.2 / rowMaxAbs g i) := by
        rw [hei, if_pos h]
      exact this ▸ List.mem_map_of_mem _ he
    · have hmap := rowAbsVals_map i (rowMaxAbs g i) h
        (fun e => if 0 < rowMaxAbs g e.1 then
          (e.1, e.2.1, e.2.2 / rowMaxAbs g e.1) else e)
        (fun e => by by_cases hce : 0 < rowMaxAbs g e.1 <;>
          simp [hce])
        (fun e hei => by simp [hei, h]) g
      rw [rowMaxAbs, csr_row_normalize_max, hmap, foldr_max_map_div _ _ h]
      exact div_self (ne_of_gt h)
  · intro hz e he hei
    have h0 : rowMaxAbs g e.1 = 0 := hei ▸ rowAbsVals_all_zero g i hz
    have : (if 0 < rowMaxAbs g e.1 then (e.1, e.2.1, e.2.2 / rowMaxAbs g e.1)
        else e) = e := by
      rw [h0]
      norm_num
    exact this ▸ List.mem_map_of_mem _ he

/-- Witness for C8: on the graph [(0,0,1/2), (0,1,2), (1,0,0)] row 0 has
max abs 2 > 0, so its entries are divided by 2 and its new max abs is 1. -/
theorem csr_row_normalize_max_spec_witness :
    (∀ e ∈ [((0 : Nat), (0 : Nat), (1/2 : ℚ)), (0, 1, 2), (1, 0, 0)],
      e.1 = 0 →
      (e.1, e.2.1, e.2.2 / rowMaxAbs
          [((0 : Nat), (0 : Nat), (1/2 : ℚ)), (0, 1, 2), (1, 0, 0)] 0) ∈
        csr_row_normalize_max
          [((0 : Nat), (0 : Nat), (1/2 : ℚ)), (0, 1, 2), (1, 0, 0)]) ∧
    rowMaxAbs (csr_row_normalize_max
      [((0 : Nat), (0 : Nat), (1/2 : ℚ)), (0, 1, 2), (1, 0, 0)]) 0 = 1 :=
  (csr_row_normalize_max_spec
    [((0 : Nat), (0 : Nat), (1/2 : ℚ)), (0, 1, 2), (1, 0, 0)] 0).1
    (by norm_num [rowMaxAbs, rowAbsVals, List.filter])

theorem fuzzy_union_comm (a b : ℚ) : fuzzy_union a b = fuzzy_union b a := by
  rw [fuzzy_union, fuzzy_union]
  ring

theorem symm_coords_swap (g : List (Nat × Nat × ℚ)) (i j : Nat)
    (h : (i, j) ∈
      g.map (fun e => (e.1, e.2.1)) ++ g.map (fun e => (e.2.1, e.1))) :
    (j, i) ∈
      g.map (fun e => (e.1, e.2.1)) ++ g.map (fun e => (e.2.1, e.1)) := by
  rcases List.mem_append.mp h with h | h
  · rcases List.mem_map.mp h with ⟨e, he, hev⟩
    have h1 : e.1 = i := congrArg Prod.fst hev
    have h2 : e.2.1 = j := congrArg Prod.snd hev
    exact List.mem_append.mpr (Or.inr (List.mem_map.mpr
      ⟨e, he, by rw [h1, h2]⟩))
  · rcases List.mem_map.mp h with ⟨e, he, hev⟩
    have h1 : e.2.1 = i := congrArg Prod.fst hev
    have h2 : e.1 = j := congrArg Prod.snd hev
    exact List.mem_append.mpr (Or.inl (List.mem_map.mpr
      ⟨e, he, by rw [h1, h2]⟩))

theorem coo_symmetrize_mem (g : List (Nat × Nat × ℚ)) (i j : Nat)
    (h : (i, j) ∈
      g.map (fun e => (e.1, e.2.1)) ++ g.map (fun e => (e.2.1, e.1))) :
    (i, j, fuzzy_union (cooVal g i j) (cooVal g j i)) ∈
      coo_symmetrize fuzzy_union g := by
  have hd := List.mem_dedup.mpr h
  exact List.mem_map_of_mem
    (fun c => (c.1, c.2, fuzzy_union (cooVal g c.1 c.2) (cooVal g c.2 c.1)))
    hd

/-- C7: the Symmetrizer's output contains, for every coordinate (i, j)
present in G or its transpose, the entry with value a + b − a·b (a = G's
value at (i, j), b = G's value at (j, i), 0 when absent), and for every
output edge the swapped edge exists in the output with the identical
value. -/
theorem coo_symmetrize_spec (g : List (Nat × Nat × ℚ)) (i j : Nat)
    (hmem : (i, j) ∈
      g.map (fun e => (e.1, e.2.1)) ++ g.map (fun e => (e.2.1, e.1))) :
    ((i, j, cooVal g i j + cooVal g j i - cooVal g i j * cooVal g j i) ∈
      coo_symmetrize fuzzy_union g) ∧
    ((j, i, cooVal g i j + cooVal g j i - cooVal g i j * cooVal g j i) ∈
      coo_symmetrize fuzzy_union g) ∧
    (∀ e ∈ coo_symmetrize fuzzy_union g,
      (e.2.1, e.1, e.2.2) ∈ coo_symmetrize fuzzy_union g) := by
  have hval : fuzzy_union (cooVal g i j) (cooVal g j i) =
      cooVal g i j + cooVal g j i - cooVal g i j * cooVal g j i := rfl
  refine ⟨hval ▸ coo_symmetrize_mem g i j hmem, ?_, ?_⟩
  · have h2 := coo_symmetrize_mem g j i (symm_coords_swap g i j hmem)
    have hval2 : fuzzy_union (cooVal g j i) (cooVal g i j) =
        cooVal g i j + cooVal g j i - cooVal g i j * cooVal g j i := by
      rw [fuzzy_union]
      ring
    exact hval2 ▸ h2
  · intro e he
    rcases List.mem_map.mp he with ⟨c, hc, hce⟩
    have hc' : (c.2, c.1) ∈
        (g.map (fun e => (e.1, e.2.1)) ++ g.map (fun e => (e.2.1, e.1))) :=
      symm_coords_swap g c.1 c.2 (List.mem_dedup.mp hc)
    have h3 := List.mem_map_of_mem
      (fun c => (c.1, c.2, fuzzy_union (cooVal g c.1 c.2) (cooVal g c.2 c.1)))
      (List.mem_dedup.mpr hc')
    have he1 : e.1 = c.1 := by rw [← hce]
    have he2 : e.2.1 = c.2 := by rw [← hce]
    have he3 : e.2.2 = fuzzy_union (cooVal g c.1 c.2) (cooVal g c.2 c.1) := by
      rw [← hce]
    rw [he1, he2, he3, fuzzy_union_comm]
    exact h3

/-- Witness for C7 on the one-edge graph [(0, 1, 1/2)]. -/
theorem coo_symmetrize_spec_witness :
    (((0 : Nat), (1 : Nat),
        cooVal [(0, 1, (1/2 : ℚ))] 0 1 + cooVal [(0, 1, (1/2 : ℚ))] 1 0 -
          cooVal [(0, 1, (1/2 : ℚ))] 0 1 * cooVal [(0, 1, (1/2 : ℚ))] 1 0) ∈
      coo_symmetrize fuzzy_union [(0, 1, (1/2 : ℚ))]) ∧
    (((1 : Nat), (0 : Nat),
        cooVal [(0, 1, (1/2 : ℚ))] 0 1 + cooVal [(0, 1, (1/2 : ℚ))] 1 0 -
          cooVal [(0, 1, (1/2 : ℚ))] 0 1 * cooVal [(0, 1, (1/2 : ℚ))] 1 0) ∈
      coo_symmetrize fuzzy_union [(0, 1, (1/2 : ℚ))]) ∧
    (∀ e ∈ coo_symmetrize fuzzy_union [(0, 1, (1/2 : ℚ))],
      (e.2.1, e.1, e.2.2) ∈ coo_symmetrize fuzzy_union [(0, 1, (1/2 : ℚ))]) :=
  coo_symmetrize_spec [(0, 1, (1/2 : ℚ))] 0 1 (by decide)

/-- Modelled from the spec: ML::UMAPParams (umapparams.h, not under src)
restricted to the FusionConfig fields of spec §3 consumed by the fusion
core. -/
structure UMAPParams where
  target_weights : ℚ
  target_n_neighbors : Nat
  unknown_dist : ℚ
  far_dist : ℚ
  verbose : Bool

/-- Modelled from the spec: MLCommon::Sparse::coo_remove_zeros lives in
sparse/coo.h, not under src. Per spec §4.4 it removes all coordinates
whose value is zero. -/
def coo_remove_zeros (entries : List (Nat × Nat × ℚ)) :
    List (Nat × Nat × ℚ) :=
  entries.filter (fun e => decide (e.2.2 ≠ 0))

/-- UMAPAlgo::Supervised::categorical_simplicial_set_intersection:
launches fast_intersection_kernel over ceildiv(nnz, TPB_X) blocks of
TPB_X threads; `unknown_dist` defaults to 1.0 as in the declaration. -/
def categorical_simplicial_set_intersection (ex : ℚ → ℚ) (TPB_X : Nat)
    (rows cols : List Nat) (vals : List ℚ) (target : Nat → ℚ)
    (far_dist : ℚ := 5) (unknown_dist : ℚ := 1) : List ℚ :=
  fast_intersection_kernel target ex unknown_dist far_dist rows cols vals
    (ceildiv vals.length TPB_X * TPB_X)

/-- UMAPAlgo::Supervised::perform_categorical_intersection: derive
far_dist from target_weights, run the label weighting (passing only
far_dist, so unknown_dist stays at its declaration default), prune
zero-valued edges, then reset local connectivity. -/
def perform_categorical_intersection (ex : ℚ → ℚ) (TPB_X : Nat)
    (y : Nat → ℚ) (rows cols : List Nat) (vals : List ℚ)
    (params : UMAPParams) : List (Nat × Nat × ℚ) :=
  reset_local_connectivity (coo_remove_zeros
    (rows.zip (cols.zip (categorical_simplicial_set_intersection ex TPB_X
      rows cols vals y (derive_far_dist params.target_weights)))))

/-- C10: the categorical entry point consults no configured unknown_dist:
its output depends on the parameter record only through target_weights,
the intersection call expands to the kernel with unknown_dist fixed at
the declaration default 1, and every unknown-labelled edge is attenuated
by exactly exp(-1). -/
theorem perform_categorical_default_unknown_dist :
    (∀ (ex : ℚ → ℚ) (TPB_X : Nat) (y : Nat → ℚ) (rows cols : List Nat)
      (vals : List ℚ) (p q : UMAPParams),
      p.target_weights = q.target_weights →
      perform_categorical_intersection ex TPB_X y rows cols vals p =
        perform_categorical_intersection ex TPB_X y rows cols vals q) ∧
    (∀ (ex : ℚ → ℚ) (TPB_X : Nat) (rows cols : List Nat) (vals : List ℚ)
      (target : Nat → ℚ) (fd : ℚ),
      categorical_simplicial_set_intersection ex TPB_X rows cols vals target
          fd =
        fast_intersection_kernel target ex 1 fd rows cols vals
          (ceildiv vals.length TPB_X * TPB_X)) ∧
    (∀ (ex : ℚ → ℚ) (TPB_X : Nat) (rows cols : List Nat) (vals : List ℚ)
      (target : Nat → ℚ) (fd : ℚ) (k : Nat), k < vals.length →
      k < ceildiv vals.length TPB_X * TPB_X →
      (target (rows.getD k 0) = -1 ∨ target (cols.getD k 0) = -1) →
      (categorical_simplicial_set_intersection ex TPB_X rows cols vals target
        fd).getD k 0 = vals.getD k 0 * ex (-1)) := by
  refine ⟨?_, ?_, ?_⟩
  · intro ex TPB_X y rows cols vals p q h
    rw [perform_categorical_intersection, perform_categorical_intersection, h]
  · intro ex TPB_X rows cols vals target fd
    rfl
  · intro ex TPB_X rows cols vals target fd k hk hnt hu
    rw [categorical_simplicial_set_intersection,
      fast_intersection_getD target ex 1 fd rows cols vals _ k hk,
      if_pos hnt, fast_intersection_val, if_pos hu]

/-- Witness for C10: two parameter records differing in every field but
target_weights produce the same output, and a concrete unknown-labelled
edge is attenuated by exp(-1). -/
theorem perform_categorical_default_unknown_dist_witness :
    perform_categorical_intersection (fun q => q) 1 (fun _ => 0) [0] [1] [4]
        ⟨9/10, 2, 7, 5, false⟩ =
      perform_categorical_intersection (fun q => q) 1 (fun _ => 0) [0] [1] [4]
        ⟨9/10, 3, 42, 9, true⟩ ∧
    (categorical_simplicial_set_intersection (fun q => q) 1 [0] [1] [4]
        (fun i => if i = 0 then 0 else -1) 3).getD 0 0 =
      (4 : ℚ) * (fun q => (q : ℚ)) (-1) :=
  ⟨perform_categorical_default_unknown_dist.1 (fun q => q) 1 (fun _ => 0) [0]
      [1] [4] ⟨9/10, 2, 7, 5, false⟩ ⟨9/10, 3, 42, 9, true⟩ rfl,
    perform_categorical_default_unknown_dist.2.2 (fun q => q) 1 [0] [1] [4]
      (fun i => if i = 0 then 0 else -1) 3 0 (by decide) (by decide)
      (Or.inr (by norm_num))⟩
